import Mathlib

/-!
Verification of the LFSR stream-cipher simulation engine.

Shallow embedding of the deterministic core:
* `src/hooks/use-lfsr.ts` — the LFSR generator (`lfsrStep`, the `useLfsr`
  hook state with its bounded output history);
* `src/unnamed/part_001` — the pulse-by-pulse encryption session
  (`handlePulse`, `handleNextByte`, `handleDesync`, `toggleSwitch`).

JavaScript 32-bit numerics are modelled on `Nat` with explicit `% 2 ^ 32`
where the code forces the unsigned interpretation (`>>> 0`).
-/

namespace LfsrSim

/-- Tap positions, from `LFSR_TAPS = [1, 5, 6, 31]` in `use-lfsr.ts`. -/
def LFSR_TAPS : List Nat := [1, 5, 6, 31]

/-- Register width, from `LFSR_SIZE = 32`. -/
def LFSR_SIZE : Nat := 32

/-- Result triple of one LFSR step, mirroring the object returned by
`lfsrStep` in `use-lfsr.ts`. -/
structure LfsrStepResult where
  newState : Nat
  outputBit : Nat
  feedbackBit : Nat
  deriving DecidableEq, Repr

/-- One LFSR step, from `lfsrStep` in `use-lfsr.ts`.

JS semantics notes: `(state >>> pos) & 1` extracts a bit of the uint32
lane; `state << 1` then `|= 1` / `&= ~1` then `>>> 0` equals, modulo
`2 ^ 32`, taking `(state <<< 1) % 2 ^ 32` and then setting or clearing
bit 0 (`~1 >>> 0 = 4294967294`); `if (feedbackBit)` tests nonzeroness. -/
def lfsrStep (state : Nat) : LfsrStepResult :=
  let tapValues := LFSR_TAPS.map fun pos => (state >>> pos) &&& 1
  let feedbackBit := tapValues.foldl (fun a b => a ^^^ b) 0
  let outputBit := (state >>> 31) &&& 1
  let shifted := (state <<< 1) % 2 ^ 32
  let newState := if feedbackBit ≠ 0 then shifted ||| 1 else shifted &&& 4294967294
  ⟨newState, outputBit, feedbackBit⟩

/-- Default seed `0b10110011100011110000111110000011` from `use-lfsr.ts`
(the same constant is repeated in `part_001`). -/
def DEFAULT_SEED : Nat := 0b10110011100011110000111110000011

/-- Iterated register update: the state after `n` LFSR steps. -/
def lfsrIterate : Nat → Nat → Nat
  | 0, s => s
  | n + 1, s => lfsrIterate n (lfsrStep s).newState

/-- Output bits of the first `n` LFSR steps from state `s`, in order. -/
def lfsrOutputs : Nat → Nat → List Nat
  | 0, _ => []
  | n + 1, s => (lfsrStep s).outputBit :: lfsrOutputs n (lfsrStep s).newState

/-- Bit `i` of `s`, as a natural number (0 or 1); used to state the
step-semantics claims. -/
def bitAt (s i : Nat) : Nat := s / 2 ^ i % 2

/-! ### Basic facts about one step -/

theorem bitAt_lt_two (s i : Nat) : bitAt s i < 2 :=
  Nat.mod_lt _ (by decide)

theorem shiftRight_and_one (s i : Nat) : (s >>> i) &&& 1 = bitAt s i := by
  rw [Nat.and_one_is_mod, Nat.shiftRight_eq_div_pow]; rfl

/-- The feedback bit is the XOR of the four tap bits. -/
theorem lfsrStep_feedbackBit (s : Nat) :
    (lfsrStep s).feedbackBit = bitAt s 1 ^^^ bitAt s 5 ^^^ bitAt s 6 ^^^ bitAt s 31 := by
  simp only [lfsrStep, LFSR_TAPS, List.map_cons, List.map_nil, List.foldl_cons,
    List.foldl_nil, Nat.zero_xor, shiftRight_and_one]

/-- The output bit is bit 31 of the old state. -/
theorem lfsrStep_outputBit (s : Nat) : (lfsrStep s).outputBit = bitAt s 31 := by
  simp only [lfsrStep, shiftRight_and_one]

theorem lfsrStep_feedbackBit_lt_two (s : Nat) : (lfsrStep s).feedbackBit < 2 := by
  rw [lfsrStep_feedbackBit]
  have h2 : (2 : Nat) = 2 ^ 1 := rfl
  rw [h2]
  exact Nat.xor_lt_two_pow
    (Nat.xor_lt_two_pow (Nat.xor_lt_two_pow (bitAt_lt_two s 1) (bitAt_lt_two s 5))
      (bitAt_lt_two s 6)) (bitAt_lt_two s 31)

/-- Setting bit 0 of an even number adds one. -/
theorem even_or_one {m : Nat} (hm : m % 2 = 0) : m ||| 1 = m + 1 := by
  have h := Nat.mul_add_lt_is_or (b := 1) (i := 1) (by decide) (m / 2)
  have hm2 : 2 ^ 1 * (m / 2) = m := by omega
  rw [hm2] at h
  omega

/-- Clearing bit 0 of an even 32-bit number leaves it unchanged
(`4294967294 = 2 ^ 32 - 2` is the uint32 value of `~1`). -/
theorem even_and_mask {m : Nat} (hm : m % 2 = 0) (hlt : m < 2 ^ 32) :
    m &&& 4294967294 = m := by
  have hdiv : (m &&& 4294967294) / 2 = m / 2 &&& 2147483647 := by
    have h := Nat.and_div_two (a := m) (b := 4294967294)
    simpa using h
  have hhalf : m / 2 &&& 2147483647 = m / 2 := by
    have h31 : (2147483647 : Nat) = 2 ^ 31 - 1 := by decide
    rw [h31, Nat.and_pow_two_sub_one_eq_mod]
    omega
  have hmod : (m &&& 4294967294) % 2 = 0 := by
    rcases Nat.eq_zero_or_pos ((m &&& 4294967294) % 2) with h | h
    · exact h
    · exfalso
      have h1 : (m &&& 4294967294) % 2 = 1 := by omega
      rw [Nat.and_mod_two_eq_one] at h1
      omega
  have := Nat.div_add_mod (m &&& 4294967294) 2
  omega

/-- Arithmetic characterization of the register update:
shift left, reduce mod `2 ^ 32`, add the feedback bit into bit 0. -/
theorem lfsrStep_newState (s : Nat) :
    (lfsrStep s).newState = 2 * s % 2 ^ 32 + (lfsrStep s).feedbackBit := by
  have hshift : (s <<< 1) = 2 * s := by
    rw [Nat.shiftLeft_eq]; ring
  have heven : (2 * s % 2 ^ 32) % 2 = 0 := by omega
  have hf := lfsrStep_feedbackBit_lt_two s
  show (if (lfsrStep s).feedbackBit ≠ 0 then (s <<< 1) % 2 ^ 32 ||| 1
      else (s <<< 1) % 2 ^ 32 &&& 4294967294) = _
  rw [hshift]
  by_cases h : (lfsrStep s).feedbackBit ≠ 0
  · rw [if_pos h, even_or_one heven]
    omega
  · rw [if_neg h, even_and_mask heven (Nat.mod_lt _ (by decide))]
    omega

/-- The new state is a proper 32-bit unsigned value. -/
theorem lfsrStep_newState_lt (s : Nat) : (lfsrStep s).newState < 2 ^ 32 := by
  have h := lfsrStep_newState s
  have hf := lfsrStep_feedbackBit_lt_two s
  have : (2 * s % 2 ^ 32) % 2 = 0 := by omega
  omega

/-! ### Generator hook state (`useLfsr` in `use-lfsr.ts`) -/

/-- The mutable state of the `useLfsr` hook: register, step counter, the
last feedback/output bits, and the bounded output-history buffer. -/
structure LfsrHook where
  state : Nat
  stepCount : Nat
  lastFeedback : Option Nat
  lastOutput : Option Nat
  outputStream : List Nat
  deriving DecidableEq, Repr

/-- Initial hook state: `useState(seed >>> 0)`, counter 0, `null` last
bits, empty stream. -/
def initHook (seed : Nat) : LfsrHook :=
  { state := seed % 2 ^ 32
    stepCount := 0
    lastFeedback := none
    lastOutput := none
    outputStream := [] }

/-- The `step` callback of `useLfsr`: one `lfsrStep`, bump the counter,
record the last bits, append the output to the stream and evict the
oldest entry (`next.shift()`) once the length exceeds 64. -/
def hookStep (h : LfsrHook) : LfsrHook :=
  let r := lfsrStep h.state
  let next := h.outputStream ++ [r.outputBit]
  { state := r.newState
    stepCount := h.stepCount + 1
    lastFeedback := some r.feedbackBit
    lastOutput := some r.outputBit
    outputStream := if next.length > 64 then next.drop 1 else next }

/-! ### Encryption session state (`part_001`) -/

/-- One row of the pulse history, from the `PulseRecord` interface. -/
structure PulseRecord where
  bitIndex : Nat
  messageBit : Nat
  lfsrTxBit : Nat
  encryptedBit : Nat
  lfsrRxBit : Nat
  decryptedBit : Nat
  deriving DecidableEq, Repr

/-- The `EncryptionSystem` component state: the eight DIP switches, the
two LFSR registers, the bit cursor, the three accumulator bytes, the
pulse history and the synchronization flags. -/
structure EncState where
  switches : List Nat
  lfsrTx : Nat
  lfsrRx : Nat
  bitCursor : Nat
  originalByte : Nat
  encryptedByte : Nat
  decryptedByte : Nat
  pulses : List PulseRecord
  isSynced : Bool
  desyncWarning : Bool
  deriving DecidableEq, Repr

/-- The component's initial switch setting `[0,1,0,0,0,0,0,1]` (0x41). -/
def initSwitches : List Nat := [0, 1, 0, 0, 0, 0, 0, 1]

/-- Session start state. The component seeds both registers with
`DEFAULT_SEED >>> 0`; the seed and switches are parameters here because
the engine accepts a caller-supplied seed and plaintext. -/
def initEncState (sw : List Nat) (seed : Nat) : EncState :=
  { switches := sw
    lfsrTx := seed % 2 ^ 32
    lfsrRx := seed % 2 ^ 32
    bitCursor := 0
    originalByte := 0
    encryptedByte := 0
    decryptedByte := 0
    pulses := []
    isSynced := true
    desyncWarning := false }

/-- Derived `byteComplete = bitCursor >= 8`. -/
def byteComplete (st : EncState) : Bool := st.bitCursor ≥ 8

/-- The `toggleSwitch` callback: early-returns when the byte is
complete, otherwise flips entry `index` (`next[index] ? 0 : 1`). -/
def toggleSwitch (index : Nat) (st : EncState) : EncState :=
  if byteComplete st then st
  else
    { st with
      switches :=
        st.switches.set index (if st.switches.getD index 0 ≠ 0 then 0 else 1) }

/-- A click on a DIP switch. The switch buttons carry
`disabled={bitCursor > 0}`, so the toggle fires only while no bit of the
current byte has been sent. -/
def toggleSwitchClick (index : Nat) (st : EncState) : EncState :=
  if st.bitCursor > 0 then st else toggleSwitch index st

/-- The `handlePulse` callback: send one bit through the cipher.
Guarded by `if (bitCursor >= 8) return`. Clocks the TX register, XORs
its output with the message bit, clocks the RX register, XORs again,
ORs the three bits into the accumulators at position `7 - bitCursor`
(MSB first), appends the pulse record and advances the cursor. -/
def handlePulse (st : EncState) : EncState :=
  if st.bitCursor ≥ 8 then st
  else
    let messageBit := st.switches.getD st.bitCursor 0
    let txResult := lfsrStep st.lfsrTx
    let lfsrTxBit := txResult.outputBit
    let encryptedBit := messageBit ^^^ lfsrTxBit
    let rxResult := lfsrStep st.lfsrRx
    let lfsrRxBit := rxResult.outputBit
    let decryptedBit := encryptedBit ^^^ lfsrRxBit
    let shift := 7 - st.bitCursor
    { st with
      lfsrTx := txResult.newState
      lfsrRx := rxResult.newState
      originalByte := st.originalByte ||| (messageBit <<< shift)
      encryptedByte := st.encryptedByte ||| (encryptedBit <<< shift)
      decryptedByte := st.decryptedByte ||| (decryptedBit <<< shift)
      pulses := st.pulses ++
        [⟨st.bitCursor, messageBit, lfsrTxBit, encryptedBit, lfsrRxBit, decryptedBit⟩]
      bitCursor := st.bitCursor + 1 }

/-- The `handleNextByte` callback: reset cursor, accumulators and pulse
history; the LFSR registers are untouched. Its button renders only when
`byteComplete`. -/
def handleNextByte (st : EncState) : EncState :=
  { st with
    bitCursor := 0
    originalByte := 0
    encryptedByte := 0
    decryptedByte := 0
    pulses := [] }

/-- The `handleDesync` callback, with the random draw
`3 + Math.floor(Math.random() * 8)` modelled as the parameter `extra`:
clock the RX register `extra` times discarding outputs, drop the sync
flag, raise the warning. -/
def handleDesync (extra : Nat) (st : EncState) : EncState :=
  { st with
    lfsrRx := lfsrIterate extra st.lfsrRx
    isSynced := false
    desyncWarning := true }

/-- A click on the desynchronize button, which carries
`disabled={!isSynced}`: the callback fires only while the session is
synchronized. -/
def handleDesyncClick (extra : Nat) (st : EncState) : EncState :=
  if st.isSynced then handleDesync extra st else st

/-! ### Iteration lemmas -/

theorem lfsrIterate_add (m n s : Nat) :
    lfsrIterate (m + n) s = lfsrIterate n (lfsrIterate m s) := by
  induction m generalizing s with
  | zero => simp [lfsrIterate]
  | succ m ih =>
      rw [Nat.succ_add]
      show lfsrIterate (m + n) (lfsrStep s).newState = _
      rw [ih]
      rfl

theorem lfsrIterate_succ' (n s : Nat) :
    lfsrIterate (n + 1) s = (lfsrStep (lfsrIterate n s)).newState := by
  rw [lfsrIterate_add n 1 s]
  rfl

theorem lfsrOutputs_length (n s : Nat) : (lfsrOutputs n s).length = n := by
  induction n generalizing s with
  | zero => rfl
  | succ n ih => simp [lfsrOutputs, ih]

theorem lfsrOutputs_add (m n s : Nat) :
    lfsrOutputs (m + n) s = lfsrOutputs m s ++ lfsrOutputs n (lfsrIterate m s) := by
  induction m generalizing s with
  | zero => simp [lfsrOutputs, lfsrIterate]
  | succ m ih =>
      rw [Nat.succ_add]
      show (lfsrStep s).outputBit :: lfsrOutputs (m + n) (lfsrStep s).newState = _
      rw [ih]
      rfl

theorem lfsrOutputs_succ' (n s : Nat) :
    lfsrOutputs (n + 1) s = lfsrOutputs n s ++ [(lfsrStep (lfsrIterate n s)).outputBit] := by
  rw [lfsrOutputs_add n 1 s]
  rfl

/-! ### Hook run lemmas -/

theorem hookStep_iter_state (seed n : Nat) :
    ((hookStep^[n]) (initHook seed)).state = lfsrIterate n (seed % 2 ^ 32) := by
  induction n with
  | zero => rfl
  | succ n ih =>
      rw [Function.iterate_succ_apply', lfsrIterate_succ', ← ih]
      rfl

theorem hookStep_iter_outputStream (seed n : Nat) :
    ((hookStep^[n]) (initHook seed)).outputStream
      = (lfsrOutputs n (seed % 2 ^ 32)).drop (n - 64) := by
  induction n with
  | zero => rfl
  | succ n ih =>
      rw [Function.iterate_succ_apply']
      show (if (((hookStep^[n]) (initHook seed)).outputStream ++
            [(lfsrStep ((hookStep^[n]) (initHook seed)).state).outputBit]).length > 64
          then _ else _) = _
      rw [ih, hookStep_iter_state, lfsrOutputs_succ']
      have hlen : ((lfsrOutputs n (seed % 2 ^ 32)).drop (n - 64)).length = n - (n - 64) := by
        simp [lfsrOutputs_length]
      by_cases hn : 64 ≤ n
      · rw [if_pos (by simp [lfsrOutputs_length]; omega)]
        rw [List.drop_append_of_le_length (by omega),
          List.drop_append_of_le_length (by rw [lfsrOutputs_length]; omega),
          List.drop_drop]
        have : n - 64 + 1 = n + 1 - 64 := by omega
        rw [this]
      · rw [if_neg (by simp [lfsrOutputs_length]; omega)]
        have h1 : n - 64 = 0 := by omega
        have h2 : n + 1 - 64 = 0 := by omega
        rw [h1, h2, List.drop_zero, List.drop_zero]

/-- Claim C7: the generator's output-history buffer never holds more
than 64 entries, and once more than 64 steps have run it holds exactly
the outputs of the most recent 64 steps, in order (FIFO eviction). -/
theorem history_bound (seed n : Nat) :
    ((hookStep^[n]) (initHook seed)).outputStream.length ≤ 64 ∧
    (64 < n →
      ((hookStep^[n]) (initHook seed)).outputStream
        = (lfsrOutputs n (seed % 2 ^ 32)).drop (n - 64)) := by
  refine ⟨?_, fun _ => hookStep_iter_outputStream seed n⟩
  rw [hookStep_iter_outputStream]
  simp only [List.length_drop, lfsrOutputs_length]
  omega

/-- Witness for `history_bound` at seed 1 after 65 steps. -/
theorem history_bound_witness :
    ((hookStep^[65]) (initHook 1)).outputStream
      = (lfsrOutputs 65 (1 % 2 ^ 32)).drop (65 - 64) :=
  (history_bound 1 65).2 (by decide)

/-! ### Session run lemmas -/

theorem handlePulse_of_lt (st : EncState) (h : st.bitCursor < 8) :
    handlePulse st =
      { st with
        lfsrTx := (lfsrStep st.lfsrTx).newState
        lfsrRx := (lfsrStep st.lfsrRx).newState
        originalByte := st.originalByte |||
          (st.switches.getD st.bitCursor 0 <<< (7 - st.bitCursor))
        encryptedByte := st.encryptedByte |||
          ((st.switches.getD st.bitCursor 0 ^^^ (lfsrStep st.lfsrTx).outputBit) <<<
            (7 - st.bitCursor))
        decryptedByte := st.decryptedByte |||
          (((st.switches.getD st.bitCursor 0 ^^^ (lfsrStep st.lfsrTx).outputBit) ^^^
              (lfsrStep st.lfsrRx).outputBit) <<< (7 - st.bitCursor))
        pulses := st.pulses ++
          [⟨st.bitCursor, st.switches.getD st.bitCursor 0,
            (lfsrStep st.lfsrTx).outputBit,
            st.switches.getD st.bitCursor 0 ^^^ (lfsrStep st.lfsrTx).outputBit,
            (lfsrStep st.lfsrRx).outputBit,
            (st.switches.getD st.bitCursor 0 ^^^ (lfsrStep st.lfsrTx).outputBit) ^^^
              (lfsrStep st.lfsrRx).outputBit⟩]
        bitCursor := st.bitCursor + 1 } := by
  unfold handlePulse
  rw [if_neg (by omega)]

theorem handlePulse_of_complete (st : EncState) (h : st.bitCursor ≥ 8) :
    handlePulse st = st := by
  unfold handlePulse
  rw [if_pos h]

theorem handlePulse_run (n : Nat) :
    ∀ st : EncState, st.bitCursor + n ≤ 8 →
    ((handlePulse^[n]) st).bitCursor = st.bitCursor + n ∧
    ((handlePulse^[n]) st).lfsrTx = lfsrIterate n st.lfsrTx ∧
    ((handlePulse^[n]) st).lfsrRx = lfsrIterate n st.lfsrRx ∧
    ((handlePulse^[n]) st).switches = st.switches ∧
    ((handlePulse^[n]) st).isSynced = st.isSynced ∧
    ((handlePulse^[n]) st).pulses.map (fun p => p.lfsrTxBit)
      = st.pulses.map (fun p => p.lfsrTxBit) ++ lfsrOutputs n st.lfsrTx := by
  induction n with
  | zero =>
      intro st _
      simp [lfsrIterate, lfsrOutputs]
  | succ n ih =>
      intro st h
      have hlt : st.bitCursor < 8 := by omega
      have hcur : (handlePulse st).bitCursor = st.bitCursor + 1 := by
        rw [handlePulse_of_lt st hlt]
      have htx : (handlePulse st).lfsrTx = (lfsrStep st.lfsrTx).newState := by
        rw [handlePulse_of_lt st hlt]
      have hrx : (handlePulse st).lfsrRx = (lfsrStep st.lfsrRx).newState := by
        rw [handlePulse_of_lt st hlt]
      have hsw : (handlePulse st).switches = st.switches := by
        rw [handlePulse_of_lt st hlt]
      have hsy : (handlePulse st).isSynced = st.isSynced := by
        rw [handlePulse_of_lt st hlt]
      have hpl : (handlePulse st).pulses.map (fun p => p.lfsrTxBit)
          = st.pulses.map (fun p => p.lfsrTxBit) ++ [(lfsrStep st.lfsrTx).outputBit] := by
        rw [handlePulse_of_lt st hlt]
        simp
      obtain ⟨h1, h2, h3, h4, h5, h6⟩ := ih (handlePulse st) (by rw [hcur]; omega)
      rw [Function.iterate_succ_apply]
      refine ⟨?_, ?_, ?_, ?_, ?_, ?_⟩
      · rw [h1, hcur]; omega
      · rw [h2, htx]; rfl
      · rw [h3, hrx]; rfl
      · rw [h4, hsw]
      · rw [h5, hsy]
      · rw [h6, hpl, htx, List.append_assoc, List.singleton_append]
        rfl

/-- While `tx` and `rx` agree, every pulse decrypts its own bit and the
decrypted accumulator tracks the original accumulator. -/
theorem synced_run (n : Nat) :
    ∀ st : EncState, st.lfsrTx = st.lfsrRx →
    st.decryptedByte = st.originalByte →
    (∀ p ∈ st.pulses, p.decryptedBit = p.messageBit) →
    ((handlePulse^[n]) st).lfsrTx = ((handlePulse^[n]) st).lfsrRx ∧
    ((handlePulse^[n]) st).decryptedByte = ((handlePulse^[n]) st).originalByte ∧
    ∀ p ∈ ((handlePulse^[n]) st).pulses, p.decryptedBit = p.messageBit := by
  induction n with
  | zero => exact fun st h1 h2 h3 => ⟨h1, h2, h3⟩
  | succ n ih =>
      intro st h1 h2 h3
      rw [Function.iterate_succ_apply]
      by_cases hc : st.bitCursor < 8
      · rw [handlePulse_of_lt st hc]
        apply ih
        · simp only [← h1]
        · simp only [← h1, Nat.xor_cancel_right, h2]
        · intro p hp
          simp only [List.mem_append, List.mem_singleton] at hp
          rcases hp with hp | hp
          · exact h3 p hp
          · subst hp
            simp only [← h1, Nat.xor_cancel_right]
      · rw [handlePulse_of_complete st (by omega)]
        exact ih st h1 h2 h3

/-- Claim C1: with `tx` and `rx` seeded identically, the eight-pulse
sequence ends with the decrypted byte equal to the original byte, and
every pulse record has its decrypted bit equal to its plaintext bit. -/
theorem cipher_self_inverse (sw : List Nat) (hlen : sw.length = 8)
    (hbits : ∀ b ∈ sw, b ≤ 1) (seed : Nat) (hseed : seed < 2 ^ 32) :
    ((handlePulse^[8]) (initEncState sw seed)).decryptedByte
      = ((handlePulse^[8]) (initEncState sw seed)).originalByte ∧
    ∀ p ∈ ((handlePulse^[8]) (initEncState sw seed)).pulses,
      p.decryptedBit = p.messageBit := by
  have h := synced_run 8 (initEncState sw seed) rfl rfl (by simp [initEncState])
  exact ⟨h.2.1, h.2.2⟩

/-- Witness for `cipher_self_inverse`: the component's own defaults,
plaintext 0x41 with the default seed. -/
theorem cipher_self_inverse_witness :
    ((handlePulse^[8]) (initEncState initSwitches DEFAULT_SEED)).decryptedByte
      = ((handlePulse^[8]) (initEncState initSwitches DEFAULT_SEED)).originalByte :=
  (cipher_self_inverse initSwitches (by decide) (by decide) DEFAULT_SEED (by decide)).1

/-- Claim C6: completing a byte resets the cursor, the accumulators and
the pulse history while preserving both registers, and the keystream of
the following byte is steps 9–16 of one uninterrupted generator run. -/
theorem byte_continuity (sw : List Nat) (seed : Nat) (hseed : seed < 2 ^ 32) :
    ((handlePulse^[8]) (initEncState sw seed)).bitCursor = 8 ∧
    (handleNextByte ((handlePulse^[8]) (initEncState sw seed))).lfsrTx
        = ((handlePulse^[8]) (initEncState sw seed)).lfsrTx ∧
    (handleNextByte ((handlePulse^[8]) (initEncState sw seed))).lfsrRx
        = ((handlePulse^[8]) (initEncState sw seed)).lfsrRx ∧
    (handleNextByte ((handlePulse^[8]) (initEncState sw seed))).bitCursor = 0 ∧
    (handleNextByte ((handlePulse^[8]) (initEncState sw seed))).originalByte = 0 ∧
    (handleNextByte ((handlePulse^[8]) (initEncState sw seed))).encryptedByte = 0 ∧
    (handleNextByte ((handlePulse^[8]) (initEncState sw seed))).decryptedByte = 0 ∧
    (handleNextByte ((handlePulse^[8]) (initEncState sw seed))).pulses = [] ∧
    ((handlePulse^[8]) (handleNextByte ((handlePulse^[8]) (initEncState sw seed)))).pulses.map
        (fun p => p.lfsrTxBit)
      = (lfsrOutputs 16 seed).drop 8 := by
  obtain ⟨hc1, htx1, hrx1, hsw1, hsy1, hp1⟩ :=
    handlePulse_run 8 (initEncState sw seed) (by simp [initEncState])
  obtain ⟨hc2, htx2, hrx2, hsw2, hsy2, hp2⟩ :=
    handlePulse_run 8 (handleNextByte ((handlePulse^[8]) (initEncState sw seed)))
      (by simp [handleNextByte])
  refine ⟨by rw [hc1]; rfl, rfl, rfl, rfl, rfl, rfl, rfl, rfl, ?_⟩
  rw [hp2]
  have hseed' : seed % 2 ^ 32 = seed := Nat.mod_eq_of_lt hseed
  have htx : (handleNextByte ((handlePulse^[8]) (initEncState sw seed))).lfsrTx
      = lfsrIterate 8 seed := by
    show ((handlePulse^[8]) (initEncState sw seed)).lfsrTx = _
    rw [htx1]
    show lfsrIterate 8 (seed % 2 ^ 32) = _
    rw [hseed']
  rw [htx]
  have h16 : lfsrOutputs 16 seed = lfsrOutputs 8 seed ++ lfsrOutputs 8 (lfsrIterate 8 seed) :=
    lfsrOutputs_add 8 8 seed
  rw [h16, List.drop_left' (lfsrOutputs_length 8 seed)]
  simp [handleNextByte]

/-- Witness for `byte_continuity` at seed 1. -/
theorem byte_continuity_witness :
    ((handlePulse^[8]) (handleNextByte ((handlePulse^[8])
        (initEncState initSwitches 1)))).pulses.map (fun p => p.lfsrTxBit)
      = (lfsrOutputs 16 1).drop 8 :=
  (byte_continuity initSwitches 1 (by decide)).2.2.2.2.2.2.2.2

/-! ### Step semantics, guards, degenerate seed, injectivity -/

/-- Claim C2: one step XORs the tap bits {1, 5, 6, 31} into the feedback
bit, expels bit 31 as the output bit, and the new register value is the
left shift with the feedback bit at bit 0, unsigned modulo `2 ^ 32`. -/
theorem step_semantics (s : Nat) (hs : s < 2 ^ 32) :
    (lfsrStep s).feedbackBit = bitAt s 1 ^^^ bitAt s 5 ^^^ bitAt s 6 ^^^ bitAt s 31 ∧
    (lfsrStep s).outputBit = bitAt s 31 ∧
    (lfsrStep s).newState = (2 * s + (lfsrStep s).feedbackBit) % 2 ^ 32 ∧
    (lfsrStep s).newState < 2 ^ 32 := by
  refine ⟨lfsrStep_feedbackBit s, lfsrStep_outputBit s, ?_, lfsrStep_newState_lt s⟩
  have h := lfsrStep_newState s
  have hf := lfsrStep_feedbackBit_lt_two s
  omega

/-- Witness for `step_semantics` at the default seed. -/
theorem step_semantics_witness :
    (lfsrStep DEFAULT_SEED).newState
      = (2 * DEFAULT_SEED + (lfsrStep DEFAULT_SEED).feedbackBit) % 2 ^ 32 :=
  (step_semantics DEFAULT_SEED (by decide)).2.2.1

/-- Claim C3: a desynchronize click while synchronized advances the RX
register by exactly `extra` steps (the random draw, 3–10) and flips the
sync flag, leaving the TX register, cursor, accumulators, switches and
pulse history untouched. -/
theorem desync_effect (st : EncState) (extra : Nat) (h3 : 3 ≤ extra)
    (h10 : extra ≤ 10) (hsync : st.isSynced = true) :
    (handleDesyncClick extra st).lfsrRx = lfsrIterate extra st.lfsrRx ∧
    (handleDesyncClick extra st).lfsrTx = st.lfsrTx ∧
    (handleDesyncClick extra st).bitCursor = st.bitCursor ∧
    (handleDesyncClick extra st).originalByte = st.originalByte ∧
    (handleDesyncClick extra st).encryptedByte = st.encryptedByte ∧
    (handleDesyncClick extra st).decryptedByte = st.decryptedByte ∧
    (handleDesyncClick extra st).pulses = st.pulses ∧
    (handleDesyncClick extra st).switches = st.switches ∧
    (handleDesyncClick extra st).isSynced = false := by
  simp [handleDesyncClick, handleDesync, hsync]

/-- Witness for `desync_effect`: five extra steps from the start state. -/
theorem desync_effect_witness :
    (handleDesyncClick 5 (initEncState initSwitches 1)).lfsrRx
      = lfsrIterate 5 (initEncState initSwitches 1).lfsrRx :=
  (desync_effect (initEncState initSwitches 1) 5 (by decide) (by decide) rfl).1

/-- Claim C4: a desynchronize click while already desynchronized is a
no-op — the button is disabled, so the whole session state, the RX
register included, is unchanged. -/
theorem desync_idempotent_guard (st : EncState) (extra : Nat)
    (h : st.isSynced = false) : handleDesyncClick extra st = st := by
  simp [handleDesyncClick, h]

/-- Witness for `desync_idempotent_guard` on a desynchronized state. -/
theorem desync_idempotent_guard_witness :
    handleDesyncClick 7 { initEncState initSwitches 1 with isSynced := false }
      = { initEncState initSwitches 1 with isSynced := false } :=
  desync_idempotent_guard { initEncState initSwitches 1 with isSynced := false } 7 rfl

/-- Claim C5: once transmission has begun (cursor strictly between 0
and 8) a switch click is rejected: the DIP buttons are disabled, so the
state — in particular the switch buffer — is unchanged. -/
theorem input_latch (st : EncState) (index : Nat) (h0 : 0 < st.bitCursor)
    (h8 : st.bitCursor < 8) : toggleSwitchClick index st = st := by
  simp [toggleSwitchClick, h0]

/-- Witness for `input_latch` after one pulse. -/
theorem input_latch_witness :
    toggleSwitchClick 3 (handlePulse (initEncState initSwitches 1))
      = handlePulse (initEncState initSwitches 1) :=
  input_latch (handlePulse (initEncState initSwitches 1)) 3 (by decide) (by decide)

/-- Claim C8: `handlePulse` with the byte complete (cursor 8) is a
no-op that leaves the entire session state unchanged. -/
theorem submit_rejected_atomic (st : EncState) (h : st.bitCursor = 8) :
    handlePulse st = st :=
  handlePulse_of_complete st (by omega)

/-- Witness for `submit_rejected_atomic` after eight pulses. -/
theorem submit_rejected_atomic_witness :
    handlePulse ((handlePulse^[8]) (initEncState initSwitches 1))
      = (handlePulse^[8]) (initEncState initSwitches 1) :=
  submit_rejected_atomic ((handlePulse^[8]) (initEncState initSwitches 1)) (by decide)

/-- Claim C9: register value 0 is a fixed point: one step yields new
state 0, output bit 0 and feedback bit 0, and iterating any number of
steps keeps the register at 0. -/
theorem zero_seed_fixed_point :
    (lfsrStep 0).newState = 0 ∧ (lfsrStep 0).outputBit = 0 ∧
    (lfsrStep 0).feedbackBit = 0 ∧ ∀ n, lfsrIterate n 0 = 0 := by
  refine ⟨by decide, by decide, by decide, ?_⟩
  intro n
  induction n with
  | zero => rfl
  | succ n ih =>
      show lfsrIterate n (lfsrStep 0).newState = 0
      have h0 : (lfsrStep 0).newState = 0 := by decide
      rw [h0]
      exact ih

/-- Bits 1, 5 and 6 of a state are determined by its low 31 bits. -/
theorem bitAt_low (s : Nat) :
    bitAt (s % 2 ^ 31) 1 = bitAt s 1 ∧ bitAt (s % 2 ^ 31) 5 = bitAt s 5 ∧
    bitAt (s % 2 ^ 31) 6 = bitAt s 6 := by
  unfold bitAt
  norm_num
  omega

/-- Claim C10: the state-transition map is injective on 32-bit states:
the expelled bit 31 is recoverable from the feedback bit XORed with the
surviving tap bits, so distinct states never merge. -/
theorem step_injective (s t : Nat) (hs : s < 2 ^ 32) (ht : t < 2 ^ 32)
    (h : (lfsrStep s).newState = (lfsrStep t).newState) : s = t := by
  have hfs := lfsrStep_feedbackBit_lt_two s
  have hft := lfsrStep_feedbackBit_lt_two t
  have hns := lfsrStep_newState s
  have hnt := lfsrStep_newState t
  have h2s : 2 * s % 2 ^ 32 = 2 * (s % 2 ^ 31) := by omega
  have h2t : 2 * t % 2 ^ 32 = 2 * (t % 2 ^ 31) := by omega
  rw [hns, hnt, h2s, h2t] at h
  have hlo : s % 2 ^ 31 = t % 2 ^ 31 := by omega
  have hfeq : (lfsrStep s).feedbackBit = (lfsrStep t).feedbackBit := by omega
  obtain ⟨hb1s, hb5s, hb6s⟩ := bitAt_low s
  obtain ⟨hb1t, hb5t, hb6t⟩ := bitAt_low t
  have hb1 : bitAt s 1 = bitAt t 1 := by rw [← hb1s, ← hb1t, hlo]
  have hb5 : bitAt s 5 = bitAt t 5 := by rw [← hb5s, ← hb5t, hlo]
  have hb6 : bitAt s 6 = bitAt t 6 := by rw [← hb6s, ← hb6t, hlo]
  rw [lfsrStep_feedbackBit, lfsrStep_feedbackBit, hb1, hb5, hb6,
    Nat.xor_assoc, Nat.xor_assoc, Nat.xor_assoc, Nat.xor_assoc] at hfeq
  have hb31 : bitAt s 31 = bitAt t 31 := Nat.xor_right_injective
    (Nat.xor_right_injective (Nat.xor_right_injective hfeq))
  unfold bitAt at hb31
  omega

/-- Witness for `step_injective` at equal concrete states. -/
theorem step_injective_witness : (5 : Nat) = 5 :=
  step_injective 5 5 (by decide) (by decide) rfl

end LfsrSim
